import Mathlib

/-!
# Verification of the `moma` crate (Moving-Origin Modular Arithmetic)

Shallow embedding of the core of the `moma` repository: the prime
utilities (`src/primes.rs`), the `MomaRing` (`src/core.rs` / `src/lib.rs`),
the `GoldbachProjector` (`src/goldbach.rs`), the `ResonanceFinder`
(`src/resonance.rs`), the `Entropy` accumulator (`src/entropy.rs`), the
`PrimeGapField` of `examples/prime_gaps`, and the `OriginDrift` analyzer
used by `examples/origin_drift`.

Machine integers: the Rust code computes on `u64`.  Values are embedded
as `ℕ`; the one place where the code relies on wraparound
(`u64::wrapping_add`) is made explicit with a reduction modulo `2^64`.
Floating-point results (`f64`) produced by exact integer operations and a
single division are embedded as `ℚ`.
-/

namespace Moma

/-- The constant `2^64`, the modulus of Rust `u64` arithmetic. -/
def U64 : ℕ := 18446744073709551616

/-- Embedding of `u64::wrapping_add`. -/
def wrapping_add (a b : ℕ) : ℕ := (a + b) % U64

/-! ## `src/primes.rs` -/

/-- The `6k±1` trial-division loop of `primes::is_prime`
(`while i * i <= n { if n % i == 0 || n % (i + 2) == 0 { return false; } i += 6; }`),
with an explicit iteration bound (`fuel`) so that the kernel can evaluate it.
Whenever `n < i + 6 * fuel` the fuel is never exhausted: the loop exits on
`i * i > n` first (see `is_prime_loop_true` / `is_prime_loop_false`, which
together show the fueled loop decides primality exactly). -/
def is_prime_loop (n : ℕ) : ℕ → ℕ → Bool
  | 0, _ => true
  | fuel + 1, i =>
    if i * i ≤ n then
      if n % i = 0 ∨ n % (i + 2) = 0 then false
      else is_prime_loop n fuel (i + 6)
    else true

/-- Embedding of `primes::is_prime` (trial division); fuel `n` satisfies
`n < 5 + 6 * n`, so the loop is never cut short. -/
def is_prime (n : ℕ) : Bool :=
  if n < 2 then false
  else if n = 2 ∨ n = 3 then true
  else if n % 2 = 0 ∨ n % 3 = 0 then false
  else is_prime_loop n n 5

/-- The descending scan of `primes::prev_prime`
(`while x >= 2 { if is_prime(x) { return x; } x -= 1; }` followed by `0`). -/
def prev_prime_loop : ℕ → ℕ
  | 0 => 0
  | 1 => 0
  | x + 2 => if is_prime (x + 2) then x + 2 else prev_prime_loop (x + 1)

/-- Embedding of `primes::prev_prime`: greatest prime strictly below `n`,
`0` when none exists (`n ≤ 2`). -/
def prev_prime (n : ℕ) : ℕ :=
  if n ≤ 2 then 0 else prev_prime_loop (n - 1)

/-! ## `src/core.rs`: `MomaRing`

The Rust `MomaRing<S: OriginStrategy>` couples a modulus with a strategy
whose only capability is `calculate_origin: u64 -> u64`; the strategy is
embedded as a plain function `ℕ → ℕ`, so every theorem quantifying over a
`MomaRing` quantifies over every origin strategy. -/

structure MomaRing where
  modulus : ℕ
  strategy : ℕ → ℕ

/-- Embedding of `MomaRing::residue`: `value` unchanged when the modulus is
zero, else `(value.wrapping_add(origin)) % modulus`. -/
def MomaRing.residue (r : MomaRing) (value prime_context : ℕ) : ℕ :=
  if r.modulus = 0 then value
  else (wrapping_add value (r.strategy prime_context)) % r.modulus

/-- Embedding of `MomaRing::signature`: `0` for `p < 3`, else the residue of
`p.wrapping_add(prev_prime(p))` in context `p`. -/
def MomaRing.signature (r : MomaRing) (p : ℕ) : ℕ :=
  if p < 3 then 0
  else r.residue (wrapping_add p (prev_prime p)) p

/-! ## `src/goldbach.rs`: `GoldbachProjector`

The Rust constructor collects `(2..=limit).filter(is_prime)` into a
`HashSet<u64>`; the set is embedded as the (duplicate-free) list of those
elements, and all statements about `project` are membership statements,
since the iteration order of a hash set is unspecified. -/

/-- The primes collected by `GoldbachProjector::new`: `(2..=limit).filter(is_prime)`. -/
def goldbach_prime_set (limit : ℕ) : List ℕ :=
  (List.range' 2 (limit - 1)).filter (fun n => is_prime n)

structure GoldbachProjector where
  prime_set : List ℕ

/-- Embedding of `GoldbachProjector::new`. -/
def GoldbachProjector.new (limit : ℕ) : GoldbachProjector :=
  ⟨goldbach_prime_set limit⟩

/-- Embedding of `GoldbachProjector::project`: empty for `n <= 2 || n % 2 != 0`,
else the pairs `(p1, n - p1)` for `p1` in `prime_set` with `p1 <= n / 2` and
`n - p1` in `prime_set`. -/
def GoldbachProjector.project (g : GoldbachProjector) (n : ℕ) : List (ℕ × ℕ) :=
  if n ≤ 2 ∨ n % 2 ≠ 0 then []
  else
    (g.prime_set.filter (fun p1 => p1 ≤ n / 2)).filterMap
      (fun p1 => if n - p1 ∈ g.prime_set then some (p1, n - p1) else none)

/-! ## `src/resonance.rs`: `ResonanceFinder` -/

structure ResonanceFinder where
  ring : MomaRing
  property_fn : ℕ → ℕ

/-- Embedding of `ResonanceFinder::new`. -/
def ResonanceFinder.new (modulus : ℕ) (strategy : ℕ → ℕ)
    (property_fn : ℕ → ℕ) : ResonanceFinder :=
  ⟨⟨modulus, strategy⟩, property_fn⟩

/-- Embedding of `ResonanceFinder::check_prime`:
`Some(signature)` when `property_value > 0 && signature % property_value == 0`,
else `None`. -/
def ResonanceFinder.check_prime (f : ResonanceFinder) (p : ℕ) : Option ℕ :=
  let s := f.ring.signature p
  let property_value := f.property_fn p
  if 0 < property_value ∧ s % property_value = 0 then some s else none

/-! ## The `OriginDrift` analyzer of `examples/origin_drift`

The example binary calls `OriginDrift::new(modulus, strategy)`, `next(p)`
and `drift_magnitude()` on `moma::origin_drift::OriginDrift`, but the
library sources only contain the unrelated `OriginDrifter` snapshot
recorder; the `OriginDrift` definition itself is absent from the sources. -/

/-- Absolute differences of consecutive entries: `|l[i+1] - l[i]|`. -/
def absDiffs : List ℕ → List ℕ
  | a :: b :: t => (max a b - min a b) :: absDiffs (b :: t)
  | _ => []

/-- Modelled from the spec: the `OriginDrift` analyzer state (its definition is
missing from the sources; only the example caller exists).  Per the spec it
owns a `MomaRing` plus an append-only history of previously computed
signatures. -/
structure OriginDrift where
  ring : MomaRing
  history : List ℕ

/-- Modelled from the spec: `OriginDrift::new` starts with an empty history. -/
def OriginDrift.new (modulus : ℕ) (strategy : ℕ → ℕ) : OriginDrift :=
  ⟨⟨modulus, strategy⟩, []⟩

/-- Modelled from the spec: `next(p)` computes `ring.signature(p)`, appends it
to the history, and returns it. -/
def OriginDrift.next (d : OriginDrift) (p : ℕ) : OriginDrift × ℕ :=
  let s := d.ring.signature p
  (⟨d.ring, d.history ++ [s]⟩, s)

/-- Modelled from the spec: `drift_magnitude()` is the mean of
`|history[i+1] - history[i]|` over all consecutive pairs, `0.0` when the
history has fewer than two entries.  The `f64` average of these exact
integer differences is embedded as `ℚ`. -/
def OriginDrift.drift_magnitude (d : OriginDrift) : ℚ :=
  if d.history.length < 2 then 0
  else ((absDiffs d.history).map (fun x => (x : ℚ))).sum / ((d.history.length : ℚ) - 1)

/-- A strategy (modulus 100) whose signatures at the primes 5, 7, 11 are
3, 7, 2: the scripted sequence of the drift example in the spec. -/
def driftDemoStrategy : ℕ → ℕ :=
  fun p => if p = 5 then 95 else if p = 7 then 95 else 84

/-- The drift analyzer after recording the signatures at 5, 7, 11. -/
def driftDemoRun : OriginDrift :=
  ((((OriginDrift.new 100 driftDemoStrategy).next 5).1.next 7).1.next 11).1

/-! ## `examples/prime_gaps`: `PrimeGapField`

`bary_offset` is an `f64` obtained from integers by one exact division and
one subtraction; it is embedded as `ℚ`.  The panicking `assert!` of
`PrimeGapField::new` is embedded as the `Except.error` branch. -/

/-- Consecutive gaps `w[1] - w[0]` of `windows(2)` (ascending inputs in all uses). -/
def gapSizes (l : List ℕ) : List ℕ :=
  List.zipWith (fun a b => b - a) l l.tail

structure PrimeGap where
  start_prime : ℕ
  end_prime : ℕ
  size : ℕ
  mod_class : ℕ
  bary_offset : ℚ

structure PrimeGapField where
  gaps : List PrimeGap
  modulus : ℕ
  entropy_scores : List (ℕ × ℚ)

/-- Embedding of `PrimeGapField::calculate_local_avg`: average gap size over
the slice `primes[start..=end+1]` where `start = index.saturating_sub(2)` and
`end = (index + 1).min(primes.len() - 2)`; `0.0` when `start >= end`. -/
def calculate_local_avg (primes : List ℕ) (index : ℕ) : ℚ :=
  let start := index - 2
  let stop := min (index + 1) (primes.length - 2)
  if stop ≤ start then 0
  else
    let window := (primes.drop start).take (stop + 2 - start)
    let total_gap_size := (gapSizes window).sum
    let count := window.length - 1
    (total_gap_size : ℚ) / (max count 1 : ℚ)

/-- Embedding of `PrimeGapField::new`, with the `assert!(primes.len() >= 2)`
panic embedded as the error branch.  One gap record per consecutive pair
`(primes[i], primes[i+1])`. -/
def PrimeGapField.new (primes : List ℕ) (modulus : ℕ) :
    Except String PrimeGapField :=
  if primes.length < 2 then
    .error "Need at least two primes to form a gap."
  else
    .ok
      { gaps :=
          (List.range (primes.length - 1)).map (fun i =>
            let p1 := primes.getD i 0
            let p2 := primes.getD (i + 1) 0
            let gap_size := p2 - p1
            let local_avg := calculate_local_avg primes (i + 1)
            { start_prime := p1
              end_prime := p2
              size := gap_size
              mod_class := gap_size % modulus
              bary_offset := (gap_size : ℚ) - local_avg })
        modulus := modulus
        entropy_scores := [] }

/-! ## `src/entropy.rs`: the `Entropy<T>` accumulator

The `HashMap<T, u64>` of frequencies is embedded as an association list
(`bumpFreq` mirrors `*frequencies.entry(item).or_insert(0) += 1`). -/

/-- Increment the count of `item` in the frequency table, inserting `1` if absent. -/
def bumpFreq {T : Type} [DecidableEq T] : List (T × ℕ) → T → List (T × ℕ)
  | [], x => [(x, 1)]
  | (k, c) :: t, x =>
    if k = x then (k, c + 1) :: t else (k, c) :: bumpFreq t x

structure Entropy (T : Type) where
  frequencies : List (T × ℕ)
  count : ℕ

/-- Embedding of `Entropy::new`. -/
def Entropy.new {T : Type} : Entropy T := ⟨[], 0⟩

/-- Embedding of `Entropy::add`: bump the item's frequency and the total count. -/
def Entropy.add {T : Type} [DecidableEq T] (e : Entropy T) (item : T) : Entropy T :=
  ⟨bumpFreq e.frequencies item, e.count + 1⟩

/-- Embedding of `Entropy::add_all`: `add` each element in order. -/
def Entropy.add_all {T : Type} [DecidableEq T] (e : Entropy T) (items : List T) :
    Entropy T :=
  items.foldl Entropy.add e

/-- One API call on an `Entropy` accumulator. -/
inductive EntropyOp (T : Type) where
  | add (item : T)
  | add_all (items : List T)

/-- Run a sequence of `add`/`add_all` calls from `Entropy::new()`. -/
def Entropy.run {T : Type} [DecidableEq T] (ops : List (EntropyOp T)) : Entropy T :=
  ops.foldl
    (fun e op =>
      match op with
      | .add x => e.add x
      | .add_all xs => e.add_all xs)
    Entropy.new

/-- The probabilities `count as f64 / self.count as f64` that
`Entropy::total_entropy` feeds into `-p * p.log2()`, embedded as `ℚ`. -/
def Entropy.probabilities {T : Type} (e : Entropy T) : List ℚ :=
  e.frequencies.map (fun kv => (kv.2 : ℚ) / (e.count : ℚ))


/-! ## Theorems -/

/-- If the fueled trial-division loop reports a divisor (returns `false`),
then `n` really has a proper divisor `d` with `2 ≤ d < n`. -/
theorem is_prime_loop_false {n : ℕ} : ∀ fuel i, 5 ≤ i →
    is_prime_loop n fuel i = false → ∃ d, d ∣ n ∧ 2 ≤ d ∧ d < n := by
  intro fuel
  induction fuel with
  | zero => intro i _ hf; simp [is_prime_loop] at hf
  | succ fuel ih =>
    intro i hi5 hf
    rw [is_prime_loop] at hf
    split at hf
    case isTrue hii =>
      split at hf
      case isTrue hdvd =>
        rcases hdvd with hmod | hmod
        · refine ⟨i, Nat.dvd_of_mod_eq_zero hmod, by omega, ?_⟩
          nlinarith
        · refine ⟨i + 2, Nat.dvd_of_mod_eq_zero hmod, by omega, ?_⟩
          nlinarith
      case isFalse hdvd => exact ih (i + 6) (by omega) hf
    case isFalse hii => exact absurd hf (by simp)

/-- If the fueled trial-division loop reports no divisor (returns `true`),
the fuel is sufficient, `i ≡ 5 (mod 6)`, no divisor below `i` exists, and
`n` is coprime to 2 and 3, then `n` has no divisor `m` with `m * m ≤ n`. -/
theorem is_prime_loop_true {n : ℕ} : ∀ fuel i, n < i + 6 * fuel → i % 6 = 5 →
    (∀ d, 2 ≤ d → d < i → ¬ d ∣ n) → ¬ 2 ∣ n → ¬ 3 ∣ n →
    is_prime_loop n fuel i = true →
    ∀ m, 2 ≤ m → m * m ≤ n → ¬ m ∣ n := by
  intro fuel
  induction fuel with
  | zero =>
    intro i hfuel hi6 hinv h2 h3 _ m hm2 hmm hmdvd
    have him : m < i := by nlinarith
    exact hinv m hm2 him hmdvd
  | succ fuel ih =>
    intro i hfuel hi6 hinv h2 h3 ht
    rw [is_prime_loop] at ht
    split at ht
    case isTrue hii =>
      split at ht
      case isTrue hdvd => exact absurd ht (by simp)
      case isFalse hdvd =>
        push_neg at hdvd
        refine ih (i + 6) (by omega) (by omega) ?_ h2 h3 ht
        intro d hd2 hdi hddvd
        by_cases hlt : d < i
        · exact hinv d hd2 hlt hddvd
        · have hd : d = i ∨ d = i + 1 ∨ d = i + 2 ∨ d = i + 3 ∨ d = i + 4 ∨ d = i + 5 := by
            omega
          rcases hd with rfl | rfl | rfl | rfl | rfl | rfl
          · exact hdvd.1 (Nat.dvd_iff_mod_eq_zero.mp hddvd)
          · exact h2 (dvd_trans (Nat.dvd_of_mod_eq_zero (by omega)) hddvd)
          · exact hdvd.2 (Nat.dvd_iff_mod_eq_zero.mp hddvd)
          · exact h2 (dvd_trans (Nat.dvd_of_mod_eq_zero (by omega)) hddvd)
          · exact h3 (dvd_trans (Nat.dvd_of_mod_eq_zero (by omega)) hddvd)
          · exact h2 (dvd_trans (Nat.dvd_of_mod_eq_zero (by omega)) hddvd)
    case isFalse hii =>
      intro m hm2 hmm hmdvd
      have him : m < i := by nlinarith
      exact hinv m hm2 him hmdvd

/-- Correctness of `primes::is_prime`: it decides primality, for every
`n : ℕ` and not only on the `[0, 10000]` window the spec tests. -/
theorem is_prime_iff_prime (n : ℕ) : is_prime n = true ↔ Nat.Prime n := by
  rw [is_prime]
  split_ifs with h1 h2 h3
  · simp only [Bool.false_eq_true, false_iff]
    intro hp
    have := hp.two_le
    omega
  · simp only [true_iff]
    rcases h2 with rfl | rfl
    · exact Nat.prime_two
    · exact Nat.prime_three
  · simp only [Bool.false_eq_true, false_iff]
    push_neg at h2
    intro hp
    rcases h3 with hmod | hmod
    · rcases hp.eq_one_or_self_of_dvd 2 (Nat.dvd_of_mod_eq_zero hmod) with h | h <;> omega
    · rcases hp.eq_one_or_self_of_dvd 3 (Nat.dvd_of_mod_eq_zero hmod) with h | h <;> omega
  · push_neg at h2 h3
    have hn5 : 5 ≤ n := by omega
    have h2' : ¬ 2 ∣ n := fun hd => h3.1 (Nat.dvd_iff_mod_eq_zero.mp hd)
    have h3' : ¬ 3 ∣ n := fun hd => h3.2 (Nat.dvd_iff_mod_eq_zero.mp hd)
    constructor
    · intro ht
      rw [Nat.prime_def_le_sqrt]
      refine ⟨by omega, fun m hm2 hms hmdvd => ?_⟩
      have hinv : ∀ d, 2 ≤ d → d < 5 → ¬ d ∣ n := by
        intro d hd2 hd5 hdvd
        have hd : d = 2 ∨ d = 3 ∨ d = 4 := by omega
        rcases hd with rfl | rfl | rfl
        · exact h2' hdvd
        · exact h3' hdvd
        · exact h2' (dvd_trans (by norm_num) hdvd)
      exact is_prime_loop_true n 5 (by omega) (by norm_num) hinv h2' h3' ht m hm2
        (Nat.le_sqrt.mp hms) hmdvd
    · intro hp
      by_contra hloop
      have hf : is_prime_loop n n 5 = false := by
        cases h : is_prime_loop n n 5
        · rfl
        · exact absurd h hloop
      obtain ⟨d, hdvd, hd2, hdn⟩ := is_prime_loop_false n 5 (by omega) hf
      rcases hp.eq_one_or_self_of_dvd d hdvd with h | h <;> omega

/-- C1: for every origin strategy and modulus, `MomaRing::signature(p)` is `0`
for `p < 3`, and for `p ≥ 3` it is the residue, in context `p`, of the sum of
`p` and its previous prime (the sum taken in `u64` arithmetic; when the
modulus is positive the unreduced sum gives the same residue). -/
theorem signature_eq_residue_of_sum (r : MomaRing) (p : ℕ) :
    (p < 3 → r.signature p = 0) ∧
    (3 ≤ p →
      r.signature p = r.residue ((p + prev_prime p) % U64) p ∧
      (0 < r.modulus → r.signature p = r.residue (p + prev_prime p) p)) := by
  constructor
  · intro h
    rw [MomaRing.signature, if_pos h]
  · intro h
    constructor
    · rw [MomaRing.signature, if_neg (by omega)]
      rfl
    · intro hm
      rw [MomaRing.signature, if_neg (by omega), MomaRing.residue, MomaRing.residue,
        if_neg (by omega), if_neg (by omega)]
      unfold wrapping_add
      rw [Nat.mod_add_mod]

theorem signature_eq_residue_of_sum_witness :
    ((⟨10, fun _ => 1⟩ : MomaRing).signature 2 = 0) ∧
    ((⟨10, fun _ => 1⟩ : MomaRing).signature 5 =
      (⟨10, fun _ => 1⟩ : MomaRing).residue (5 + prev_prime 5) 5) :=
  ⟨(signature_eq_residue_of_sum ⟨10, fun _ => 1⟩ 2).1 (by omega),
   ((signature_eq_residue_of_sum ⟨10, fun _ => 1⟩ 5).2 (by omega)).2 (by decide)⟩

/-- C2: for every modulus `m > 0`, every origin strategy and every context
`p ≥ 3`, the signature is a bounded residue: `0 ≤ signature(p) < m`. -/
theorem signature_bounded (r : MomaRing) (p : ℕ) (hm : 0 < r.modulus)
    (hp : 3 ≤ p) : 0 ≤ r.signature p ∧ r.signature p < r.modulus := by
  refine ⟨Nat.zero_le _, ?_⟩
  rw [MomaRing.signature, if_neg (by omega), MomaRing.residue, if_neg (by omega)]
  exact Nat.mod_lt _ hm

theorem signature_bounded_witness :
    0 ≤ (⟨10, fun _ => 0⟩ : MomaRing).signature 3 ∧
    (⟨10, fun _ => 0⟩ : MomaRing).signature 3 < (⟨10, fun _ => 0⟩ : MomaRing).modulus :=
  signature_bounded ⟨10, fun _ => 0⟩ 3 (by norm_num) (by norm_num)

/-- C3: for every modulus `m > 0`, value and context, `MomaRing::residue`
computes `((value + origin(p)) mod 2^64) mod m`: the addition wraps as
unsigned modular arithmetic, and is total (no panic) on every input. -/
theorem residue_wraps (r : MomaRing) (value p : ℕ) (hm : 0 < r.modulus) :
    r.residue value p = ((value + r.strategy p) % U64) % r.modulus := by
  rw [MomaRing.residue, if_neg (by omega)]
  rfl

theorem residue_wraps_witness :
    (⟨10, fun _ => 5⟩ : MomaRing).residue (U64 - 1) 0 = 4 :=
  (residue_wraps ⟨10, fun _ => 5⟩ (U64 - 1) 0 (by norm_num)).trans (by decide)

/-- C4: when the modulus is `0`, `MomaRing::residue` returns the value
unchanged — a defined degenerate case, with no division by zero. -/
theorem residue_modulus_zero (r : MomaRing) (value p : ℕ) (hm : r.modulus = 0) :
    r.residue value p = value := by
  rw [MomaRing.residue, if_pos hm]

theorem residue_modulus_zero_witness :
    (⟨0, fun _ => 7⟩ : MomaRing).residue 42 5 = 42 :=
  residue_modulus_zero ⟨0, fun _ => 7⟩ 42 5 rfl

/-- C5: on `[0, 10000]` (indeed on all of `ℕ`, see `is_prime_iff_prime`),
`primes::is_prime` agrees with the reference definition of primality:
`n` is at least 2 and has no divisor other than `1` and itself. -/
theorem is_prime_agrees_reference (n : ℕ) (_hn : n ≤ 10000) :
    is_prime n = true ↔ (2 ≤ n ∧ ∀ d, d ∣ n → d = 1 ∨ d = n) :=
  (is_prime_iff_prime n).trans Nat.prime_def

theorem is_prime_agrees_reference_witness :
    2 ≤ 9973 ∧ ∀ d, d ∣ 9973 → d = 1 ∨ d = 9973 :=
  (is_prime_agrees_reference 9973 (by norm_num)).mp (by decide)

/-- C6: for an even `n > 2`, `GoldbachProjector::project(n)` returns exactly
the unordered pairs `(p1, p2)`, `p1 ≤ p2`, of elements of the precomputed
prime set summing to `n`; for odd or zero `n` it returns nothing; and with
limit 48 the pairs for 48 are `(5,43), (7,41), (11,37), (17,31), (19,29)`. -/
theorem goldbach_project_spec (L n : ℕ) :
    (n % 2 = 0 → 2 < n → ∀ p1 p2 : ℕ,
      ((p1, p2) ∈ (GoldbachProjector.new L).project n ↔
        p1 ∈ goldbach_prime_set L ∧ p2 ∈ goldbach_prime_set L ∧
          p1 ≤ p2 ∧ p1 + p2 = n)) ∧
    (n % 2 = 1 ∨ n = 0 → (GoldbachProjector.new L).project n = []) ∧
    (GoldbachProjector.new 48).project 48 =
      [(5, 43), (7, 41), (11, 37), (17, 31), (19, 29)] := by
  refine ⟨?_, ?_, by decide⟩
  · intro heven hgt p1 p2
    rw [GoldbachProjector.project, if_neg (by omega)]
    simp only [List.mem_filterMap, List.mem_filter, GoldbachProjector.new,
      decide_eq_true_eq]
    constructor
    · rintro ⟨a, ⟨haps, hahalf⟩, hopt⟩
      by_cases hmem : n - a ∈ goldbach_prime_set L
      · rw [if_pos hmem] at hopt
        have ha : a = p1 ∧ n - a = p2 := by
          have := Option.some.inj hopt
          exact ⟨congrArg Prod.fst this, congrArg Prod.snd this⟩
        obtain ⟨rfl, hp2⟩ := ha
        subst hp2
        exact ⟨haps, hmem, by omega, by omega⟩
      · rw [if_neg hmem] at hopt
        exact absurd hopt (by simp)
    · rintro ⟨hp1, hp2, hle, hsum⟩
      refine ⟨p1, ⟨hp1, by omega⟩, ?_⟩
      have hp2' : n - p1 = p2 := by omega
      rw [hp2']
      rw [if_pos hp2]
  · intro hodd
    rw [GoldbachProjector.project, if_pos (by omega)]

theorem goldbach_project_spec_witness :
    ((5, 43) ∈ (GoldbachProjector.new 48).project 48 ↔
      5 ∈ goldbach_prime_set 48 ∧ 43 ∈ goldbach_prime_set 48 ∧
        5 ≤ 43 ∧ 5 + 43 = 48) ∧
    (GoldbachProjector.new 48).project 7 = [] :=
  ⟨(goldbach_project_spec 48 48).1 (by norm_num) (by norm_num) 5 43,
   (goldbach_project_spec 48 7).2.1 (Or.inl (by norm_num))⟩

/-- C7: `ResonanceFinder::check_prime(p)` returns `Some(signature)` exactly
when `property(p) > 0` and `signature % property(p) == 0`; otherwise it
returns `None` — in particular a zero property value always yields `None`
(the division-by-zero guard). -/
theorem check_prime_spec (f : ResonanceFinder) (p : ℕ) :
    (f.check_prime p = some (f.ring.signature p) ↔
      0 < f.property_fn p ∧ f.ring.signature p % f.property_fn p = 0) ∧
    (¬ (0 < f.property_fn p ∧ f.ring.signature p % f.property_fn p = 0) →
      f.check_prime p = none) ∧
    (f.property_fn p = 0 → f.check_prime p = none) := by
  have hdef : f.check_prime p =
      if 0 < f.property_fn p ∧ f.ring.signature p % f.property_fn p = 0 then
        some (f.ring.signature p)
      else none := rfl
  rw [hdef]
  split_ifs with h
  · exact ⟨⟨fun _ => h, fun _ => rfl⟩, fun hn => absurd h hn,
      fun h0 => absurd h0 (by omega)⟩
  · refine ⟨⟨fun heq => absurd heq (by simp), fun hh => absurd hh h⟩,
      fun _ => rfl, fun _ => rfl⟩

theorem check_prime_spec_witness :
    (ResonanceFinder.new 10 (fun _ => 0) (fun _ => 0)).check_prime 5 = none :=
  (check_prime_spec (ResonanceFinder.new 10 (fun _ => 0) (fun _ => 0)) 5).2.2 rfl

/-- C8 counterexample: after recording the signatures `[3, 7, 2]` the drift
magnitude is `(|7-3| + |2-7|) / 2 = 9/2 = 4.5`, not `4.0` as the worked
example of the spec states. -/
theorem drift_magnitude_example_not_four :
    driftDemoRun.history = [3, 7, 2] ∧ driftDemoRun.drift_magnitude ≠ 4 := by
  have hh : driftDemoRun.history = [3, 7, 2] := by decide
  refine ⟨hh, ?_⟩
  rw [OriginDrift.drift_magnitude, hh]
  norm_num [absDiffs]

/-- C8 (amended): `drift_magnitude()` is `0` after zero or one `next` call
and the mean absolute consecutive difference of the history afterwards; on
the recorded signatures `[3, 7, 2]` it is `(|7-3| + |2-7|) / 2 = 4.5`. -/
theorem drift_magnitude_amended :
    (∀ m s, (OriginDrift.new m s).drift_magnitude = 0) ∧
    (∀ m s p, (((OriginDrift.new m s).next p).1).drift_magnitude = 0) ∧
    (∀ d : OriginDrift, 2 ≤ d.history.length →
      d.drift_magnitude =
        ((absDiffs d.history).map (fun x => (x : ℚ))).sum /
          ((d.history.length : ℚ) - 1)) ∧
    driftDemoRun.history = [3, 7, 2] ∧ driftDemoRun.drift_magnitude = 9 / 2 := by
  have hh : driftDemoRun.history = [3, 7, 2] := by decide
  refine ⟨fun m s => rfl, fun m s p => rfl, ?_, hh, ?_⟩
  · intro d hd
    rw [OriginDrift.drift_magnitude, if_neg (by omega)]
  · rw [OriginDrift.drift_magnitude, hh]
    norm_num [absDiffs]

theorem drift_magnitude_amended_witness :
    driftDemoRun.drift_magnitude =
      ((absDiffs driftDemoRun.history).map (fun x => (x : ℚ))).sum /
        ((driftDemoRun.history.length : ℚ) - 1) :=
  drift_magnitude_amended.2.2.1 driftDemoRun (by decide)

/-- C9: `PrimeGapField::new` with fewer than two primes fails with the
precondition-violation error; with at least two primes it succeeds with one
gap record per consecutive pair (never an empty-but-successful field). -/
theorem prime_gap_field_new_spec (primes : List ℕ) (modulus : ℕ) :
    (primes.length < 2 →
      PrimeGapField.new primes modulus =
        .error "Need at least two primes to form a gap.") ∧
    (2 ≤ primes.length → ∃ f : PrimeGapField,
      PrimeGapField.new primes modulus = .ok f ∧
      f.gaps.length = primes.length - 1 ∧ f.gaps ≠ []) := by
  constructor
  · intro h
    rw [PrimeGapField.new, if_pos h]
  · intro h
    rw [PrimeGapField.new, if_neg (by omega)]
    refine ⟨_, rfl, ?_, ?_⟩
    · simp
    · intro hnil
      have hlen := congrArg List.length hnil
      simp at hlen
      omega

theorem prime_gap_field_new_spec_witness :
    (PrimeGapField.new [] 6 = .error "Need at least two primes to form a gap.") ∧
    (∃ f : PrimeGapField, PrimeGapField.new [3, 5, 7] 6 = .ok f ∧
      f.gaps.length = [3, 5, 7].length - 1 ∧ f.gaps ≠ []) :=
  ⟨(prime_gap_field_new_spec [] 6).1 (by norm_num),
   (prime_gap_field_new_spec [3, 5, 7] 6).2 (by norm_num)⟩

/-- Bumping one frequency raises the total of all per-item counts by one. -/
theorem sum_bumpFreq {T : Type} [DecidableEq T] (l : List (T × ℕ)) (x : T) :
    ((bumpFreq l x).map (fun kv => kv.2)).sum = (l.map (fun kv => kv.2)).sum + 1 := by
  induction l with
  | nil => simp [bumpFreq]
  | cons kv t ih =>
    obtain ⟨k, c⟩ := kv
    rw [bumpFreq]
    split_ifs with h
    · simp
      omega
    · simp [ih]
      omega

/-- Invariant preservation: `Entropy::add` keeps `count` equal to the total
of the frequency table. -/
theorem entropy_add_invariant {T : Type} [DecidableEq T] (e : Entropy T) (x : T)
    (h : e.count = (e.frequencies.map (fun kv => kv.2)).sum) :
    (e.add x).count = ((e.add x).frequencies.map (fun kv => kv.2)).sum := by
  simp [Entropy.add, sum_bumpFreq, h]

/-- Invariant preservation: `Entropy::add_all` keeps `count` equal to the
total of the frequency table. -/
theorem entropy_add_all_invariant {T : Type} [DecidableEq T] (e : Entropy T)
    (xs : List T) (h : e.count = (e.frequencies.map (fun kv => kv.2)).sum) :
    (e.add_all xs).count = ((e.add_all xs).frequencies.map (fun kv => kv.2)).sum := by
  induction xs generalizing e with
  | nil => exact h
  | cons y ys ih =>
    rw [Entropy.add_all, List.foldl_cons]
    exact ih (e.add y) (entropy_add_invariant e y h)

/-- Summing the termwise division by a constant. -/
theorem sum_map_div_const {T : Type} (l : List (T × ℕ)) (c : ℚ) :
    (l.map (fun kv => (kv.2 : ℚ) / c)).sum =
      (((l.map (fun kv => kv.2) : List ℕ)).sum : ℚ) / c := by
  induction l with
  | nil => simp
  | cons kv t ih =>
    simp [ih, add_div]

/-- C10: after any sequence of `add`/`add_all` calls starting from
`Entropy::new()`, the running `count` equals the sum of all per-item
frequency counts, and once anything has been added the probabilities
`count(x) / total` used by `total_entropy` sum to exactly 1. -/
theorem entropy_invariant {T : Type} [DecidableEq T] (ops : List (EntropyOp T)) :
    (Entropy.run ops).count =
      ((Entropy.run ops).frequencies.map (fun kv => kv.2)).sum ∧
    (0 < (Entropy.run ops).count → (Entropy.run ops).probabilities.sum = 1) := by
  have hinv : (Entropy.run ops).count =
      ((Entropy.run ops).frequencies.map (fun kv => kv.2)).sum := by
    rw [Entropy.run]
    have : ∀ e : Entropy T, e.count = (e.frequencies.map (fun kv => kv.2)).sum →
        (ops.foldl
          (fun e op =>
            match op with
            | .add x => e.add x
            | .add_all xs => e.add_all xs) e).count =
        ((ops.foldl
          (fun e op =>
            match op with
            | .add x => e.add x
            | .add_all xs => e.add_all xs) e).frequencies.map (fun kv => kv.2)).sum := by
      induction ops with
      | nil => exact fun e h => h
      | cons op rest ih =>
        intro e h
        rw [List.foldl_cons]
        apply ih
        cases op with
        | add x => exact entropy_add_invariant e x h
        | add_all xs => exact entropy_add_all_invariant e xs h
    exact this Entropy.new rfl
  refine ⟨hinv, fun hpos => ?_⟩
  rw [Entropy.probabilities, sum_map_div_const, ← hinv, div_self]
  exact_mod_cast hpos.ne'

theorem entropy_invariant_witness :
    (Entropy.run [EntropyOp.add (0 : ℕ), EntropyOp.add_all [1, 1, 2]]).count =
      ((Entropy.run [EntropyOp.add (0 : ℕ),
        EntropyOp.add_all [1, 1, 2]]).frequencies.map (fun kv => kv.2)).sum ∧
    (Entropy.run [EntropyOp.add (0 : ℕ), EntropyOp.add_all [1, 1, 2]]).probabilities.sum = 1 :=
  ⟨(entropy_invariant [EntropyOp.add 0, EntropyOp.add_all [1, 1, 2]]).1,
   (entropy_invariant [EntropyOp.add 0, EntropyOp.add_all [1, 1, 2]]).2 (by decide)⟩

end Moma
